import Mathlib

/-!
Verification of the bounded-concurrency task pool of this repository
(`gevent.pool.Pool` and its collaborators), as described by the
specification, against the behaviour exercised by
`src/greentest/test__pool.py`.

The pool implementation itself (`gevent/pool.py`, `gevent/greenlet.py`,
`gevent/lock.py`) is not present under `src/`; only its tests and the
package `__init__` are.  The definitions below are therefore shallow
models built from the specification's description of those missing
modules (Semaphore, Pool admission, Task/Future, ordered and unordered
result streamers), and every theorem is a statement about these models.
-/

namespace GeventPool

/-- Modelled from the spec: the observable state of a `Pool` (missing
module `gevent/pool.py`) together with its sizing `Semaphore` (missing
module `gevent/lock.py`).  `counter` is the semaphore counter (free
slots), `waiters` the FIFO queue of callers suspended in
`Semaphore.acquire`, `active` the set of Tasks currently owned by the
pool (`self.greenlets`), `pending` the Tasks that have finished but
whose completion links (remove from `active`, release the slot) are
scheduled for a later scheduler iteration, `done` the Tasks whose
result is available to `get`, and `killed` the Tasks forcibly
terminated by `Pool.kill`.  Tasks are identified by natural numbers. -/
structure PoolState where
  size : Nat
  counter : Nat
  waiters : List Nat
  active : List Nat
  pending : List Nat
  done : List Nat
  killed : List Nat
deriving DecidableEq

/-- Modelled from the spec: a freshly constructed pool of capacity `C`
has an empty `active` set and a semaphore counter equal to `C`. -/
def initPool (C : Nat) : PoolState :=
  ⟨C, C, [], [], [], [], []⟩

/-- Modelled from the spec: `Semaphore.release` — if `waiters` is
non-empty the oldest waiter is woken (its suspended `spawn` resumes and
its Task enters `active`, the counter unchanged), otherwise the counter
is incremented. -/
def release (s : PoolState) : PoolState :=
  match s.waiters with
  | [] => { s with counter := s.counter + 1 }
  | w :: ws => { s with waiters := ws, active := s.active ++ [w] }

/-- Modelled from the spec: the pool's internal completion link for a
Task `t` — remove `t` from `active` (if still there) and release its
slot.  Also used by `discard` and `kill`. -/
def removeRelease (s : PoolState) (t : Nat) : PoolState :=
  if t ∈ s.active then release { s with active := s.active.erase t } else s

/-- Observable scheduler-level events of the pool model: a caller
spawns Task `t`, Task `t` finishes its work (its result becomes
available and its completion link is scheduled), one scheduler
iteration runs the scheduled completion links, a caller discards `t`,
or the pool is killed. -/
inductive Event where
  | spawn (t : Nat)
  | finish (t : Nat)
  | tick
  | discard (t : Nat)
  | kill
deriving DecidableEq

/-- Modelled from the spec: one pool transition per event.
`spawn` acquires a semaphore slot, suspending the caller in `waiters`
when no slot is free; `finish` records the Task's result and schedules
its completion link for the next scheduler iteration (the slot is not
yet released — the deferral documented by the pool tests);
`tick` runs the scheduled completion links; `discard` removes the Task
and releases its slot immediately without touching the Task's own
state; `kill` forcibly terminates every Task currently in `active`,
draining `active` and releasing all slots. -/
def step (s : PoolState) (e : Event) : PoolState :=
  match e with
  | .spawn t =>
      if 0 < s.counter then
        { s with counter := s.counter - 1, active := s.active ++ [t] }
      else
        { s with waiters := s.waiters ++ [t] }
  | .finish t =>
      if t ∈ s.active ∧ t ∉ s.done then
        { s with done := s.done ++ [t], pending := s.pending ++ [t] }
      else s
  | .tick => s.pending.foldl removeRelease { s with pending := [] }
  | .discard t => removeRelease s t
  | .kill =>
      let s2 := s.active.foldl removeRelease s
      { s2 with killed := s2.killed ++ s.active, done := s2.done ++ s.active }

/-- A trace of events applied to a state. -/
def run (s : PoolState) (evs : List Event) : PoolState :=
  evs.foldl step s

/-- Modelled from the spec: `Pool.free_count()` reports the number of
free slots, the semaphore's counter. -/
def freeCount (s : PoolState) : Nat := s.counter

/-- Modelled from the spec: `len(pool)` is the number of Tasks in
`active`. -/
def poolLen (s : PoolState) : Nat := s.active.length

/-- The accounting invariant of a capacity-`C` pool: free slots plus
occupied slots equal the capacity, and a caller is suspended in
`waiters` only while no slot is free. -/
def Inv (C : Nat) (s : PoolState) : Prop :=
  s.counter + s.active.length = C ∧ (s.waiters ≠ [] → s.counter = 0)

/-- Pool construction errors (missing module `gevent/pool.py`). -/
inductive PoolInitError where
  | invalidSize
deriving DecidableEq

/-- Modelled from the spec: constructing a `Pool` validates the
requested capacity synchronously — a negative capacity is rejected at
construction time with a validation error (`ValueError`) and no pool
state is created; a non-negative capacity yields a fresh pool. -/
def poolNew (size : Int) : Except PoolInitError PoolState :=
  if size < 0 then .error .invalidSize
  else .ok (initPool size.toNat)

/-- The state machine of a Task (missing module `gevent/greenlet.py`):
pending, running, completed, or killed. -/
inductive TaskState where
  | taskPending
  | running
  | completed
  | taskKilled
deriving DecidableEq

/-- Modelled from the spec: a running Task as seen by a waiter —
`needed` scheduler steps of work in total, of which `progress` are
done, producing `value` on completion. -/
structure GTask where
  needed : Nat
  value : Nat
  progress : Nat
  state : TaskState
deriving DecidableEq

/-- Failures surfaced to a waiter by `Task.get` (spec §7): the Task's
own failure, or the timeout-specific failure raised only to the
waiter. -/
inductive GetFailure where
  | timeout
deriving DecidableEq

/-- Modelled from the spec: one scheduler step of a running Task; it
reaches the `completed` terminal state when its work is done. -/
def taskStep (tk : GTask) : GTask :=
  match tk.state with
  | .running =>
      if tk.needed ≤ tk.progress + 1 then
        { tk with progress := tk.progress + 1, state := .completed }
      else
        { tk with progress := tk.progress + 1 }
  | _ => tk

/-- Run a Task for `k` scheduler steps. -/
def runFor (k : Nat) (tk : GTask) : GTask :=
  match k with
  | 0 => tk
  | k + 1 => runFor k (taskStep tk)

/-- Modelled from the spec: `Task.get(timeout)` — if the Task is
already terminal its result is returned; otherwise the caller waits,
and if the timeout elapses before the Task's remaining work is done, a
timeout-specific failure is raised to the waiter while the Task itself
is left untouched. The returned pair is (outcome seen by the waiter,
Task as it is after the call returns to the waiter). -/
def taskGet (tk : GTask) (timeout : Nat) : Except GetFailure Nat × GTask :=
  if tk.state = .completed then (.ok tk.value, tk)
  else if tk.needed - tk.progress ≤ timeout then
    (.ok tk.value, runFor (tk.needed - tk.progress) tk)
  else
    (.error .timeout, tk)

/-- The emit loop of the ordered streamer, bounded by the fuel
argument: starting from the next index expected by the consumer, emit
consecutive buffered results until a gap (an index whose Task has not
completed yet) is reached.  Returns the emitted results and the new
next-expected index. -/
def drainF {β : Type _} : Nat → (Nat → Option β) → Nat → List β × Nat
  | 0, _, next => ([], next)
  | fuel + 1, buf, next =>
      match buf next with
      | some v =>
          let r := drainF fuel buf (next + 1)
          (v :: r.1, r.2)
      | none => ([], next)

/-- Modelled from the spec: the ordered streamer's emit loop for a
stream of `n` inputs — emit consecutive buffered results starting at
`next`, stopping at the first index whose result is not yet buffered
or at the end of the input. -/
def drain {β : Type _} (n : Nat) (buf : Nat → Option β) (next : Nat) : List β × Nat :=
  drainF (n - next) buf next

/-- State of the ordered streamer (`IMap` of the missing module
`gevent/pool.py`): the index-keyed buffer of completed-but-unemitted
results, the next input index to emit, and the results emitted to the
consumer so far. -/
structure IState (β : Type _) where
  buf : Nat → Option β
  next : Nat
  out : List β

/-- Modelled from the spec: what the ordered streamer does when the
Task of input index `i` completes — its result is stored in the buffer
keyed by its index, then every consecutive result starting at the
next-expected index is emitted to the consumer. -/
def istep {β : Type _} (n : Nat) (res : Nat → β) (s : IState β) (i : Nat) : IState β :=
  let buf2 : Nat → Option β := fun j => if j = i then some (res i) else s.buf j
  let d := drain n buf2 s.next
  ⟨buf2, d.2, s.out ++ d.1⟩

/-- Modelled from the spec: the full output of `imap` over `n` indexed
Tasks with results `res`, when the Tasks complete in the order given
by `order`, consumed to exhaustion. -/
def imapRun {β : Type _} (n : Nat) (res : Nat → β) (order : List Nat) : List β :=
  (order.foldl (istep n res) ⟨fun _ => none, 0, []⟩).out

/-- The buffer holding exactly the results of the completed indices `P`. -/
def bufOf {β : Type _} (res : Nat → β) (P : List Nat) : Nat → Option β :=
  fun j => if j ∈ P then some (res j) else none

/-- Modelled from the spec: `pool.imap(f, xs)` consumed to exhaustion,
when the underlying Tasks complete in the order `order` of input
indices. -/
def imapModel {α β : Type _} [Inhabited α] (f : α → β) (xs : List α)
    (order : List Nat) : List β :=
  imapRun xs.length (fun i => f (xs.getD i default)) order

/-- Modelled from the spec: `imap_unordered` passes each result to the
consumer as soon as its Task completes, in completion order. -/
def imapUnorderedModel {α β : Type _} [Inhabited α] (f : α → β) (xs : List α)
    (order : List Nat) : List β :=
  order.map (fun i => f (xs.getD i default))

/-- Whether position `j` of an `imap` output stream holds a success
value. -/
def isOkAt {ε γ : Type _} (l : List (Except ε γ)) (j : Nat) : Bool :=
  match l.get? j with
  | some (.ok _) => true
  | _ => false

/-- Stops at the first error, otherwise collects all success values:
the relation between `map` and `imap` described by the spec. -/
def collectExc {ε γ : Type _} : List (Except ε γ) → Except ε (List γ)
  | [] => .ok []
  | .error e :: _ => .error e
  | .ok v :: rest => (collectExc rest).map (fun l => v :: l)

/-- Modelled from the spec: `pool.map(f, xs)` behaves as collecting
`imap`'s output into a sequence, raising the first index-order
failure. -/
def mapModel {α ε γ : Type _} [Inhabited α] (f : α → Except ε γ) (xs : List α)
    (order : List Nat) : Except ε (List γ) :=
  collectExc (imapModel f xs order)

/-- Integer stand-in for the tests' `divide_by` fixture: fails on
input 0, succeeds elsewhere. -/
def divideBy (x : Nat) : Except Nat Nat :=
  if x = 0 then .error 0 else .ok (100 / x)

/-- The invariant of the ordered streamer after the Tasks of the
indices `P` have completed: the buffer holds exactly their results,
everything before the next-expected index has completed, the
next-expected index has not (unless the stream is exhausted), and the
output emitted so far is exactly the results of `0, 1, ...` up to the
next-expected index. -/
def StreamInv {β : Type _} (n : Nat) (res : Nat → β) (P : List Nat) (s : IState β) : Prop :=
  s.buf = bufOf res P ∧ s.next ≤ n ∧ (∀ j, j < s.next → j ∈ P) ∧
  (s.next < n → s.next ∉ P) ∧ s.out = (List.range s.next).map res

theorem inv_initPool (C : Nat) : Inv C (initPool C) := by
  constructor
  · simp [initPool]
  · intro h
    simp [initPool] at h

theorem inv_removeRelease {C : Nat} {s : PoolState} (h : Inv C s) (t : Nat) :
    Inv C (removeRelease s t) := by
  obtain ⟨hsum, hw⟩ := h
  unfold removeRelease
  by_cases ht : t ∈ s.active
  · simp only [ht, if_pos]
    unfold release
    rcases hmw : s.waiters with _ | ⟨w, ws⟩
    · refine ⟨?_, ?_⟩
      · have := List.length_erase_of_mem ht
        simp only [this]
        have hpos : 0 < s.active.length := List.length_pos_of_mem ht
        omega
      · intro hne
        simp at hne
    · refine ⟨?_, ?_⟩
      · have := List.length_erase_of_mem ht
        have hpos : 0 < s.active.length := List.length_pos_of_mem ht
        simp only [List.length_append, this, List.length_cons, List.length_nil]
        have hc0 : s.counter = 0 := hw (by simp [hmw])
        omega
      · intro _
        exact hw (by simp [hmw])
  · simp only [ht, if_neg, not_false_iff]
    exact ⟨hsum, hw⟩

theorem inv_foldl_removeRelease {C : Nat} (ts : List Nat) {s : PoolState}
    (h : Inv C s) : Inv C (ts.foldl removeRelease s) := by
  induction ts generalizing s with
  | nil => exact h
  | cons t ts ih => exact ih (inv_removeRelease h t)

theorem inv_step {C : Nat} {s : PoolState} (h : Inv C s) (e : Event) :
    Inv C (step s e) := by
  obtain ⟨hsum, hw⟩ := h
  cases e with
  | spawn t =>
      unfold step
      by_cases hc : 0 < s.counter
      · simp only [hc, if_pos]
        refine ⟨?_, ?_⟩
        · simp only [List.length_append, List.length_cons, List.length_nil]
          omega
        · intro hne
          exact absurd (hw hne) (by omega)
      · simp only [hc, if_neg, not_false_iff]
        refine ⟨hsum, fun _ => ?_⟩
        show s.counter = 0
        omega
  | finish t =>
      unfold step
      by_cases hcond : t ∈ s.active ∧ t ∉ s.done
      · simp only [hcond, if_pos]
        exact ⟨hsum, hw⟩
      · simp only [hcond, if_neg, not_false_iff]
        exact ⟨hsum, hw⟩
  | tick =>
      unfold step
      exact inv_foldl_removeRelease s.pending ⟨hsum, hw⟩
  | discard t => exact inv_removeRelease ⟨hsum, hw⟩ t
  | kill =>
      unfold step
      have h2 := inv_foldl_removeRelease s.active (s := s) ⟨hsum, hw⟩
      exact ⟨h2.1, h2.2⟩

theorem inv_run (C : Nat) (evs : List Event) {s : PoolState} (h : Inv C s) :
    Inv C (run s evs) := by
  induction evs generalizing s with
  | nil => exact h
  | cons e evs ih => exact ih (inv_step h e)

/-- Claim C1: for every pool of finite capacity `C` and every event
trace, the number of active Tasks never exceeds `C`; moreover when the
pool is full, a further `spawn` leaves `active` unchanged and suspends
the caller at the end of the semaphore's FIFO `waiters` queue, and the
suspended caller's Task enters `active` once one of the `C` active
Tasks finishes and a scheduler iteration releases its slot. -/
theorem spawn_capacity_invariant (C : Nat) (evs : List Event) (t u : Nat) :
    (run (initPool C) evs).active.length ≤ C ∧
    ((run (initPool C) evs).active.length = C →
      (step (run (initPool C) evs) (.spawn t)).active = (run (initPool C) evs).active ∧
      (step (run (initPool C) evs) (.spawn t)).waiters
        = (run (initPool C) evs).waiters ++ [t] ∧
      ((run (initPool C) evs).waiters = [] → (run (initPool C) evs).pending = [] →
        u ∈ (run (initPool C) evs).active → u ∉ (run (initPool C) evs).done →
        t ∈ (run (run (initPool C) evs) [.spawn t, .finish u, .tick]).active)) := by
  have hinv := inv_run C evs (inv_initPool C)
  set s := run (initPool C) evs with hs
  obtain ⟨hsum, hw⟩ := hinv
  refine ⟨by omega, fun hfull => ?_⟩
  have hc0 : s.counter = 0 := by omega
  refine ⟨by simp [step, hc0], by simp [step, hc0], ?_⟩
  intro hwnil hpnil hu hud
  have h1 : step s (.spawn t) = { s with waiters := [t] } := by
    simp [step, hc0, hwnil]
  have h2 : step { s with waiters := [t] } (.finish u)
      = { s with waiters := [t], done := s.done ++ [u], pending := [u] } := by
    simp [step, hu, hud, hpnil]
  have h3 : step { s with waiters := [t], done := s.done ++ [u], pending := [u] } .tick
      = { s with
          waiters := [], done := s.done ++ [u], pending := [],
          active := s.active.erase u ++ [t] } := by
    simp [step, removeRelease, hu, release]
  show t ∈ (run s [.spawn t, .finish u, .tick]).active
  simp only [run, List.foldl_cons, List.foldl_nil]
  rw [h1, h2, h3]
  simp

/-- Spawning a list of Tasks into a pool with enough free slots admits
all of them in order, decrementing the counter accordingly. -/
theorem run_spawn_list (ts : List Nat) (s : PoolState) (h : ts.length ≤ s.counter) :
    run s (ts.map Event.spawn)
      = { s with counter := s.counter - ts.length, active := s.active ++ ts } := by
  induction ts generalizing s with
  | nil => simp [run]
  | cons t ts ih =>
      have hc : 0 < s.counter := by
        simp only [List.length_cons] at h
        omega
      simp only [List.map_cons, run, List.foldl_cons]
      rw [show step s (.spawn t)
            = { s with counter := s.counter - 1, active := s.active ++ [t] } from by
          simp [step, hc]]
      rw [show List.foldl step { s with counter := s.counter - 1, active := s.active ++ [t] }
            (ts.map Event.spawn)
          = run { s with counter := s.counter - 1, active := s.active ++ [t] }
              (ts.map Event.spawn) from rfl]
      rw [ih _ (by simp only [List.length_cons] at h; simp; omega)]
      have hcnt : s.counter - 1 - ts.length = s.counter - (ts.length + 1) := by omega
      simp [hcnt, List.append_assoc]

/-- Folding the completion link over exactly the pool's (duplicate-free)
active list, with nobody waiting, drains `active` and returns every
slot to the counter. -/
theorem kill_drain (ts : List Nat) : ∀ (s : PoolState), s.waiters = [] →
    s.active = ts → ts.Nodup →
    ts.foldl removeRelease s = { s with active := [], counter := s.counter + ts.length } := by
  induction ts with
  | nil =>
      intro s hw ha _
      cases s
      simp_all
  | cons t ts ih =>
      intro s hw ha hnd
      simp only [List.foldl_cons]
      have h1 : removeRelease s t = { s with active := ts, counter := s.counter + 1 } := by
        unfold removeRelease
        have ht : t ∈ s.active := by rw [ha]; simp
        simp only [ht, if_pos]
        unfold release
        simp [hw, ha, List.erase_cons_head]
      rw [h1]
      rw [ih { s with active := ts, counter := s.counter + 1 } (by simpa using hw) rfl
          hnd.of_cons]
      have hcnt : s.counter + 1 + ts.length = s.counter + (ts.length + 1) := by omega
      simp [hcnt]

/-- Claim C6: spawning `capacity`-many long-running Tasks and then
calling `kill()` forcibly terminates every one of them and reclaims
every slot without any Task having finished on its own: afterwards
`free_count()` equals the capacity and `len(pool)` is `0`. -/
theorem kill_reclaims_all_slots (C : Nat) :
    freeCount (run (initPool C) ((List.range C).map Event.spawn ++ [Event.kill])) = C ∧
    poolLen (run (initPool C) ((List.range C).map Event.spawn ++ [Event.kill])) = 0 ∧
    (run (initPool C) ((List.range C).map Event.spawn ++ [Event.kill])).killed
      = List.range C := by
  have hsp := run_spawn_list (List.range C) (initPool C) (by simp [initPool])
  have hrun : run (initPool C) ((List.range C).map Event.spawn ++ [Event.kill])
      = step (run (initPool C) ((List.range C).map Event.spawn)) Event.kill := by
    simp [run, List.foldl_append]
  rw [hrun, hsp]
  have hstate : { initPool C with
                  counter := (initPool C).counter - (List.range C).length,
                  active := (initPool C).active ++ List.range C }
      = (⟨C, 0, [], List.range C, [], [], []⟩ : PoolState) := by
    simp [initPool]
  rw [hstate]
  have hdrain := kill_drain (List.range C) (⟨C, 0, [], List.range C, [], [], []⟩ : PoolState)
    rfl rfl (List.nodup_range C)
  show freeCount (step _ Event.kill) = C ∧ poolLen (step _ Event.kill) = 0 ∧
      (step _ Event.kill).killed = List.range C
  simp only [step]
  rw [hdrain]
  simp [freeCount, poolLen]

/-- Claim C7: on a capacity-1 pool, `spawn(x)` followed by
`discard(x)` immediately leaves one free slot and an empty pool,
without `x` having completed and without `x` having been killed — the
discard does not touch `x`'s own state machine. -/
theorem discard_releases_slot_immediately (x : Nat) :
    freeCount (run (initPool 1) [Event.spawn x, Event.discard x]) = 1 ∧
    poolLen (run (initPool 1) [Event.spawn x, Event.discard x]) = 0 ∧
    x ∉ (run (initPool 1) [Event.spawn x, Event.discard x]).done ∧
    x ∉ (run (initPool 1) [Event.spawn x, Event.discard x]).killed := by
  simp [run, step, initPool, removeRelease, release, freeCount, poolLen]

/-- Claim C10: slot release is deferred to the next scheduler
iteration rather than synchronous with result availability — after a
spawned Task finishes (its result is in `done`, so `get()` returns),
the Task is still in `active` and `free_count()` still reports its
slot as occupied; only after a scheduler iteration runs the completion
links is the slot observably released. -/
theorem slot_release_deferred_to_next_tick (C t : Nat) (h : 1 ≤ C) :
    t ∈ (run (initPool C) [Event.spawn t, Event.finish t]).done ∧
    t ∈ (run (initPool C) [Event.spawn t, Event.finish t]).active ∧
    freeCount (run (initPool C) [Event.spawn t, Event.finish t]) = C - 1 ∧
    freeCount (run (initPool C) [Event.spawn t, Event.finish t, Event.tick]) = C ∧
    poolLen (run (initPool C) [Event.spawn t, Event.finish t, Event.tick]) = 0 := by
  have hc : 0 < C := h
  have h1 : step (initPool C) (.spawn t)
      = (⟨C, C - 1, [], [t], [], [], []⟩ : PoolState) := by
    simp [step, initPool, hc]
  have h2 : step (⟨C, C - 1, [], [t], [], [], []⟩ : PoolState) (.finish t)
      = (⟨C, C - 1, [], [t], [t], [t], []⟩ : PoolState) := by
    simp [step]
  have h3 : step (⟨C, C - 1, [], [t], [t], [t], []⟩ : PoolState) .tick
      = (⟨C, C - 1 + 1, [], [], [], [t], []⟩ : PoolState) := by
    simp [step, removeRelease, release]
  have hrun2 : run (initPool C) [Event.spawn t, Event.finish t]
      = (⟨C, C - 1, [], [t], [t], [t], []⟩ : PoolState) := by
    simp only [run, List.foldl_cons, List.foldl_nil]
    rw [h1, h2]
  have hrun3 : run (initPool C) [Event.spawn t, Event.finish t, Event.tick]
      = (⟨C, C - 1 + 1, [], [], [], [t], []⟩ : PoolState) := by
    simp only [run, List.foldl_cons, List.foldl_nil]
    rw [h1, h2, h3]
  rw [hrun2, hrun3]
  refine ⟨by simp, by simp, rfl, ?_, rfl⟩
  show C - 1 + 1 = C
  omega

/-- Concrete evaluation of `slot_release_deferred_to_next_tick` on a
capacity-2 pool. -/
theorem slot_release_deferred_witness :
    0 ∈ (run (initPool 2) [Event.spawn 0, Event.finish 0]).done ∧
    0 ∈ (run (initPool 2) [Event.spawn 0, Event.finish 0]).active ∧
    freeCount (run (initPool 2) [Event.spawn 0, Event.finish 0]) = 2 - 1 ∧
    freeCount (run (initPool 2) [Event.spawn 0, Event.finish 0, Event.tick]) = 2 ∧
    poolLen (run (initPool 2) [Event.spawn 0, Event.finish 0, Event.tick]) = 0 :=
  slot_release_deferred_to_next_tick 2 0 (by decide)

/-- Concrete evaluation of `spawn_capacity_invariant`: a capacity-1
pool holding Task 5 suspends the spawner of Task 7, which is admitted
once Task 5 finishes and a scheduler iteration runs. -/
theorem spawn_capacity_invariant_witness :
    (run (initPool 1) [Event.spawn 5]).active.length ≤ 1 ∧
    7 ∈ (run (run (initPool 1) [Event.spawn 5])
          [.spawn 7, .finish 5, .tick]).active := by
  have h := spawn_capacity_invariant 1 [Event.spawn 5] 7 5
  exact ⟨h.1, (h.2 (by decide)).2.2 (by decide) (by decide) (by decide) (by decide)⟩


/-- Claim C9: constructing a pool with a negative capacity fails
synchronously with the validation error — no pool state is ever
produced, so the error cannot be deferred to a later operation. -/
theorem pool_negative_size_errors (size : Int) (h : size < 0) :
    poolNew size = .error .invalidSize ∧ ∀ p, poolNew size ≠ .ok p := by
  refine ⟨by simp [poolNew, h], fun p hp => ?_⟩
  simp [poolNew, h] at hp

/-- Concrete evaluation of `pool_negative_size_errors` at `-1`, the
capacity used by the construction-error test. -/
theorem pool_negative_size_errors_witness :
    poolNew (-1) = .error .invalidSize ∧ ∀ p, poolNew (-1) ≠ .ok p :=
  pool_negative_size_errors (-1) (by decide)


theorem runFor_completes (k : Nat) : ∀ tk : GTask, tk.state = .running →
    tk.needed = tk.progress + k → 0 < k → (runFor k tk).state = .completed := by
  induction k with
  | zero => intro tk _ _ h0; omega
  | succ k ih =>
      intro tk hrun hneed _
      by_cases hk : k = 0
      · subst hk
        simp only [runFor, taskStep, hrun]
        rw [if_pos (by omega)]
      · show (runFor k (taskStep tk)).state = .completed
        have hstep : taskStep tk = { tk with progress := tk.progress + 1 } := by
          simp only [taskStep, hrun]
          rw [if_neg (by omega)]
        rw [hstep]
        exact ih _ hrun (by simp; omega) (by omega)

/-- Claim C8: on a not-yet-terminal Task, `get(timeout)` whose timeout
elapses before the Task completes raises the timeout-specific failure
to the waiting caller, leaves the Task's own state exactly as it was,
and the Task then keeps running and reaches its normal `completed`
terminal state. -/
theorem get_timeout_leaves_task_running (tk : GTask) (timeout : Nat)
    (hrun : tk.state = .running)
    (hto : timeout < tk.needed - tk.progress) :
    (taskGet tk timeout).1 = .error .timeout ∧
    (taskGet tk timeout).2 = tk ∧
    (runFor (tk.needed - tk.progress) (taskGet tk timeout).2).state = .completed := by
  have hne : ¬ tk.state = .completed := by rw [hrun]; intro h; cases h
  have hgt : ¬ (tk.needed - tk.progress ≤ timeout) := by omega
  have hget : taskGet tk timeout = (.error .timeout, tk) := by
    simp [taskGet, hne, hgt]
  refine ⟨by rw [hget], by rw [hget], ?_⟩
  rw [hget]
  exact runFor_completes _ tk hrun (by omega) (by omega)

/-- Concrete evaluation of `get_timeout_leaves_task_running`: a Task
needing 5 steps, waited on with timeout 3. -/
theorem get_timeout_witness :
    (taskGet ⟨5, 42, 0, .running⟩ 3).1 = .error .timeout ∧
    (taskGet ⟨5, 42, 0, .running⟩ 3).2 = ⟨5, 42, 0, .running⟩ ∧
    (runFor ((5 : Nat) - 0) (taskGet ⟨5, 42, 0, .running⟩ 3).2).state = .completed :=
  get_timeout_leaves_task_running ⟨5, 42, 0, .running⟩ 3 rfl (by decide)


theorem drain_char {β : Type _} (res : Nat → β) (P : List Nat) (n : Nat) :
    ∀ fuel next, fuel = n - next → next ≤ n →
      (drain n (bufOf res P) next).1
        = (List.range' next ((drain n (bufOf res P) next).2 - next)).map res ∧
      next ≤ (drain n (bufOf res P) next).2 ∧
      (drain n (bufOf res P) next).2 ≤ n ∧
      (∀ j, next ≤ j → j < (drain n (bufOf res P) next).2 → j ∈ P) ∧
      ((drain n (bufOf res P) next).2 < n → (drain n (bufOf res P) next).2 ∉ P) := by
  intro fuel
  induction fuel with
  | zero =>
      intro next hf hle
      have hn : next = n := by omega
      have hd : drain n (bufOf res P) next = ([], next) := by
        unfold drain
        rw [← hf]
        rfl
      rw [hd]
      exact ⟨by simp, Nat.le_refl _, hn.le, fun j h1 h2 => absurd h2 (Nat.not_lt.mpr h1),
        fun h => absurd h (by omega)⟩
  | succ fuel ih =>
      intro next hf hle
      have hlt : next < n := by omega
      by_cases hmem : next ∈ P
      · have hbuf : bufOf res P next = some (res next) := by simp [bufOf, hmem]
        have hd : drain n (bufOf res P) next
            = (res next :: (drain n (bufOf res P) (next + 1)).1,
               (drain n (bufOf res P) (next + 1)).2) := by
          unfold drain
          rw [← hf]
          simp only [drainF, hbuf]
          rw [show fuel = n - (next + 1) from by omega]
        obtain ⟨ih1, ih2, ih3, ih4, ih5⟩ := ih (next + 1) (by omega) (by omega)
        rw [hd]
        refine ⟨?_, ?_, ih3, ?_, ih5⟩
        · have hm : (drain n (bufOf res P) (next + 1)).2 - next
              = ((drain n (bufOf res P) (next + 1)).2 - (next + 1)) + 1 := by omega
          rw [hm, List.range'_succ, List.map_cons, ih1]
        · omega
        · intro j h1 h2
          rcases Nat.eq_or_lt_of_le h1 with h | h
          · rw [← h]; exact hmem
          · exact ih4 j h h2
      · have hbuf : bufOf res P next = none := by simp [bufOf, hmem]
        have hd : drain n (bufOf res P) next = ([], next) := by
          unfold drain
          rw [← hf]
          simp only [drainF, hbuf]
        rw [hd]
        exact ⟨by simp, Nat.le_refl _, hle, fun j h1 h2 => absurd h2 (Nat.not_lt.mpr h1),
          fun _ => hmem⟩

theorem istep_inv {β : Type _} (n : Nat) (res : Nat → β) (P : List Nat) {s : IState β}
    {i : Nat} (h : StreamInv n res P s) (hiP : i ∉ P) (hin : i < n) :
    StreamInv n res (i :: P) (istep n res s i) := by
  obtain ⟨hbuf, hnext, hmem, hgap, hout⟩ := h
  have hbuf2 : (fun j => if j = i then some (res i) else s.buf j) = bufOf res (i :: P) := by
    funext j
    by_cases hj : j = i
    · subst hj
      simp [bufOf]
    · simp [bufOf, hj, hbuf, List.mem_cons]
  obtain ⟨hc1, hc2, hc3, hc4, hc5⟩ :=
    drain_char res (i :: P) n (n - s.next) s.next rfl hnext
  have hi : istep n res s i
      = ⟨bufOf res (i :: P), (drain n (bufOf res (i :: P)) s.next).2,
         s.out ++ (drain n (bufOf res (i :: P)) s.next).1⟩ := by
    unfold istep
    rw [hbuf2]
  rw [hi]
  refine ⟨rfl, hc3, ?_, hc5, ?_⟩
  · intro j hj
    by_cases hjs : j < s.next
    · exact List.mem_cons_of_mem i (hmem j hjs)
    · exact hc4 j (by omega) hj
  · rw [hout, hc1, List.range_eq_range', List.range_eq_range', ← List.map_append]
    rw [show List.range' s.next ((drain n (bufOf res (i :: P)) s.next).2 - s.next)
          = List.range' (0 + s.next) ((drain n (bufOf res (i :: P)) s.next).2 - s.next) from by
        rw [Nat.zero_add]]
    rw [List.range'_append_1]
    rw [show (drain n (bufOf res (i :: P)) s.next).2 - s.next + s.next
          = (drain n (bufOf res (i :: P)) s.next).2 from by omega]

theorem foldl_istep_inv {β : Type _} (n : Nat) (res : Nat → β) :
    ∀ (order P : List Nat) (s : IState β),
    StreamInv n res P s → (∀ i ∈ order, i < n ∧ i ∉ P) → order.Nodup →
    StreamInv n res (order.reverse ++ P) (order.foldl (istep n res) s) := by
  intro order
  induction order with
  | nil =>
      intro P s h _ _
      simpa using h
  | cons i rest ih =>
      intro P s h hcond hnd
      have hi := hcond i (by simp)
      have hnd2 := List.nodup_cons.mp hnd
      simp only [List.foldl_cons, List.reverse_cons, List.append_assoc,
        List.singleton_append]
      refine ih (i :: P) (istep n res s i) (istep_inv n res P h hi.2 hi.1) ?_ hnd2.2
      intro j hj
      refine ⟨(hcond j (by simp [hj])).1, ?_⟩
      simp only [List.mem_cons, not_or]
      exact ⟨fun hji => hnd2.1 (hji ▸ hj), (hcond j (by simp [hj])).2⟩

theorem imapRun_eq {β : Type _} (n : Nat) (res : Nat → β) (order : List Nat)
    (h : order.Perm (List.range n)) :
    imapRun n res order = (List.range n).map res := by
  have hnd : order.Nodup := h.nodup_iff.mpr (List.nodup_range n)
  have hlt : ∀ i ∈ order, i < n ∧ i ∉ ([] : List Nat) := by
    intro i hi
    exact ⟨List.mem_range.mp (h.mem_iff.mp hi), by simp⟩
  have hinit : StreamInv n res [] (⟨fun _ => none, 0, []⟩ : IState β) := by
    refine ⟨?_, Nat.zero_le n, ?_, ?_, ?_⟩
    · funext j
      simp [bufOf]
    · intro j hj
      exact absurd hj (Nat.not_lt_zero j)
    · intro _
      simp
    · simp
  obtain ⟨hbuf, hnext, hmem, hgap, hout⟩ := foldl_istep_inv n res order [] _ hinit hlt hnd
  set sf := order.foldl (istep n res) (⟨fun _ => none, 0, []⟩ : IState β) with hsf
  have hnn : sf.next = n := by
    by_contra hne
    have hlt2 : sf.next < n := lt_of_le_of_ne hnext hne
    have hmem2 : sf.next ∈ order.reverse ++ [] := by
      simp only [List.append_nil, List.mem_reverse]
      exact h.mem_iff.mpr (List.mem_range.mpr hlt2)
    exact hgap hlt2 hmem2
  show sf.out = _
  rw [hout, hnn]

theorem range_map_getD {α β : Type _} [Inhabited α] (xs : List α) (f : α → β) :
    (List.range xs.length).map (fun i => f (xs.getD i default)) = xs.map f := by
  induction xs with
  | nil => simp
  | cons x xs ih =>
      simp only [List.length_cons, List.range_succ_eq_map, List.map_cons, List.map_map]
      refine congrArg₂ _ rfl ?_
      rw [← ih]
      refine List.map_congr_left ?_
      intro a _
      simp [Function.comp, List.getD_cons_succ]

theorem imapModel_eq_map {α β : Type _} [Inhabited α] (f : α → β)
    (xs : List α) (order : List Nat) (h : order.Perm (List.range xs.length)) :
    imapModel f xs order = xs.map f := by
  rw [imapModel, imapRun_eq _ _ _ h, range_map_getD]

/-- Claim C2: for every function, every input sequence (the empty one
included) and every completion order of the underlying Tasks,
consuming `pool.imap(f, xs)` to exhaustion yields exactly
`[f(x) for x in xs]` in input-index order. -/
theorem imap_ordered_yields_input_order {α β : Type _} [Inhabited α] (f : α → β)
    (xs : List α) (order : List Nat) (h : order.Perm (List.range xs.length)) :
    imapModel f xs order = xs.map f :=
  imapModel_eq_map f xs order h

/-- Concrete evaluation of `imap_ordered_yields_input_order`: squares
of `[1, 2, 3]` with the Tasks completing in the order 2, 0, 1. -/
theorem imap_ordered_witness :
    imapModel (fun x => x * x) [1, 2, 3] [2, 0, 1] = [1, 4, 9] := by
  have h := imap_ordered_yields_input_order (fun x => x * x) [1, 2, 3] [2, 0, 1] (by decide)
  simpa using h

/-- Claim C3: for every function, every finite input sequence and
every completion order, consuming `pool.imap_unordered(f, xs)` to
exhaustion yields, as a multiset, exactly `[f(x) for x in xs]` —
every input produces exactly one result, none duplicated or
dropped. -/
theorem imap_unordered_multiset_complete {α β : Type _} [Inhabited α] (f : α → β)
    (xs : List α) (order : List Nat) (h : order.Perm (List.range xs.length)) :
    (imapUnorderedModel f xs order).Perm (xs.map f) := by
  show (order.map fun i => f (xs.getD i default)).Perm (xs.map f)
  rw [← range_map_getD xs f]
  exact h.map _

/-- Concrete evaluation of `imap_unordered_multiset_complete` with
completion order 1, 2, 0. -/
theorem imap_unordered_witness :
    (imapUnorderedModel (fun x => x + 10) [5, 6, 7] [1, 2, 0]).Perm
      ([5, 6, 7].map (fun x => x + 10)) :=
  imap_unordered_multiset_complete (fun x => x + 10) [5, 6, 7] [1, 2, 0] (by decide)

/-- Claim C4: if the Task of input index `k` fails while every other
index succeeds, the `imap` stream surfaces the failure exactly at
position `k` — after the results of indices below `k` and regardless
of completion order — the stream stays usable (every other position
holds its success value) and ends after exactly `xs.length` turns. -/
theorem imap_error_raised_at_index {α ε γ : Type _} [Inhabited α]
    (f : α → Except ε γ) (xs : List α) (order : List Nat) (k : Nat) (e : ε)
    (hperm : order.Perm (List.range xs.length))
    (hk : (xs.map f).get? k = some (.error e))
    (hok : ∀ j, j < xs.length → j ≠ k → isOkAt (xs.map f) j = true) :
    (imapModel f xs order).get? k = some (.error e) ∧
    (∀ j, j < xs.length → j ≠ k → isOkAt (imapModel f xs order) j = true) ∧
    (imapModel f xs order).length = xs.length := by
  rw [imapModel_eq_map f xs order hperm]
  exact ⟨hk, hok, List.length_map xs f⟩

/-- Concrete evaluation of `imap_error_raised_at_index`: `divideBy`
over `[1, 0, 2]`, whose index-1 Task fails, completing in the order
1, 2, 0. -/
theorem imap_error_witness :
    (imapModel divideBy [1, 0, 2] [1, 2, 0]).get? 1 = some (.error 0) :=
  (imap_error_raised_at_index divideBy [1, 0, 2] [1, 2, 0] 1 0 (by decide) rfl
    (by decide)).1

theorem collectExc_error {ε γ : Type _} : ∀ (l : List (Except ε γ)) (k : Nat) (e : ε),
    l.get? k = some (.error e) → (∀ j, j < k → isOkAt l j = true) →
    collectExc l = .error e := by
  intro l
  induction l with
  | nil =>
      intro k e hk _
      simp at hk
  | cons x rest ih =>
      intro k e hk hbef
      cases k with
      | zero =>
          rw [List.get?_cons_zero] at hk
          rw [Option.some_inj.mp hk]
          rfl
      | succ k =>
          have h0 : isOkAt (x :: rest) 0 = true := hbef 0 (Nat.succ_pos k)
          cases x with
          | error e2 => simp [isOkAt] at h0
          | ok v =>
              show (collectExc rest).map (fun l => v :: l) = .error e
              rw [ih k e (by simpa using hk)
                (fun j hj => by simpa [isOkAt] using hbef (j + 1) (Nat.succ_lt_succ hj))]
              rfl

/-- Claim C5: when applying `f` to at least one input fails,
`pool.map(f, xs)` raises the failure of the smallest failing input
index to the caller instead of returning a result sequence, for every
completion order of the underlying Tasks. -/
theorem map_raises_first_index_error {α ε γ : Type _} [Inhabited α]
    (f : α → Except ε γ) (xs : List α) (order : List Nat) (k : Nat) (e : ε)
    (hperm : order.Perm (List.range xs.length))
    (hk : (xs.map f).get? k = some (.error e))
    (hbef : ∀ j, j < k → isOkAt (xs.map f) j = true) :
    mapModel f xs order = .error e := by
  unfold mapModel
  rw [imapModel_eq_map f xs order hperm]
  exact collectExc_error _ k e hk hbef

/-- Concrete evaluation of `map_raises_first_index_error`: `divideBy`
over `[1, 0, 2]` fails at index 1, so `map` raises that failure. -/
theorem map_error_witness : mapModel divideBy [1, 0, 2] [2, 1, 0] = .error 0 :=
  map_raises_first_index_error divideBy [1, 0, 2] [2, 1, 0] 1 0 (by decide) rfl
    (by decide)

end GeventPool
